import Mathlib

/-!
Shallow embedding of `simple_txtar` (src/lib.rs): a parser and serializer for
the txtar text archive format.  Text is modelled as `List Char`; the byte
offsets of the Rust code become character indices (all marker delimiters are
ASCII, so the two views coincide).
-/

set_option maxHeartbeats 1000000

/-- The constant `NEWLINE_MARKER = "\n-- "` from the source. -/
def NEWLINE_MARKER : List Char := "\n-- ".toList

/-- The constant `MARKER = "-- "` from the source. -/
def MARKER : List Char := "-- ".toList

/-- The constant `MARKER_END = " --"` from the source. -/
def MARKER_END : List Char := " --".toList

/-- The constant `MARKER_LEN = MARKER.len() + MARKER_END.len()` from the source. -/
def MARKER_LEN : Nat := MARKER.length + MARKER_END.length

/-- Rust `char::is_whitespace`: the Unicode `White_Space` property. -/
def isRustWhitespace (c : Char) : Bool :=
  c == '\t' || c == '\n' || c == '\x0b' || c == '\x0c' || c == '\r' || c == ' ' ||
  c == '\u0085' || c == '\u00A0' || c == '\u1680' ||
  c == '\u2000' || c == '\u2001' || c == '\u2002' || c == '\u2003' || c == '\u2004' ||
  c == '\u2005' || c == '\u2006' || c == '\u2007' || c == '\u2008' || c == '\u2009' ||
  c == '\u200A' || c == '\u2028' || c == '\u2029' || c == '\u202F' || c == '\u205F' ||
  c == '\u3000'

/-- Rust `str::trim`: strip leading and trailing whitespace. -/
def trim (s : List Char) : List Char :=
  ((s.dropWhile isRustWhitespace).reverse.dropWhile isRustWhitespace).reverse

/-- Rust `str::find(pat)`: index of the first occurrence of `pat`, if any. -/
def findSub (pat : List Char) : List Char → Option Nat
  | [] => if pat.isPrefixOf ([] : List Char) then some 0 else none
  | c :: cs => if pat.isPrefixOf (c :: cs) then some 0 else (findSub pat cs).map (· + 1)

/-- The `match s.find('\n')` step of `try_parse_marker`: cut the candidate
line at its terminating newline (consuming the newline), or take the whole
remainder when there is none. -/
def cutNL (s : List Char) : List Char × List Char :=
  match findSub ['\n'] s with
  | some i => (s.take i, s.drop (i + 1))
  | none => (s, [])

/-- `try_parse_marker` from the source: if `s` starts with a valid marker
line, return the declared (trimmed) file name and the text after the marker
line's terminating newline. -/
def try_parse_marker (s : List Char) : Option (List Char × List Char) :=
  if MARKER.isPrefixOf s then
    let line := (cutNL s).1
    let after := (cutNL s).2
    if MARKER_END.isSuffixOf line ∧ MARKER_LEN ≤ line.length then
      some (trim ((line.drop MARKER.length).take (line.length - MARKER.length - MARKER_END.length)),
        after)
    else none
  else none

/-- `fix_trailing_newline` from the source: append a newline to a non-empty
string that does not already end in one. -/
def fix_trailing_newline (s : List Char) : List Char :=
  if s = [] ∨ s.getLast? = some '\n' then s else s ++ ['\n']

-- sanity checks of the embedding on source-level examples
example : try_parse_marker "-- file1 --\nrest".toList = some ("file1".toList, "rest".toList) := by
  decide
example : try_parse_marker "-- foo ---\nrest".toList = none := by decide
example : try_parse_marker "-- --".toList = none := by decide
example : try_parse_marker "--  --".toList = some ([], []) := by decide
example : try_parse_marker "--   foo bar   --".toList = some ("foo bar".toList, []) := by decide

theorem findSub_some_lt (pat : List Char) (l : List Char) (j : Nat)
    (hp : pat ≠ []) (h : findSub pat l = some j) : j < l.length := by
  induction l generalizing j with
  | nil =>
    cases pat with
    | nil => exact absurd rfl hp
    | cons c cs => simp [findSub, List.isPrefixOf] at h
  | cons c cs ih =>
    by_cases hpre : pat.isPrefixOf (c :: cs) = true
    · simp [findSub, hpre] at h
      simp [← h]
    · simp [findSub, hpre] at h
      obtain ⟨j', hj', rfl⟩ := h
      have := ih j' hj'
      simp only [List.length_cons]
      omega

theorem findSub_drop (pat : List Char) (l : List Char) (j : Nat)
    (h : findSub pat l = some j) : pat.isPrefixOf (l.drop j) = true := by
  induction l generalizing j with
  | nil =>
    by_cases hpre : pat.isPrefixOf ([] : List Char) = true
    · simp [findSub, hpre] at h
      subst h
      simpa using hpre
    · simp [findSub, hpre] at h
  | cons c cs ih =>
    by_cases hpre : pat.isPrefixOf (c :: cs) = true
    · simp [findSub, hpre] at h
      subst h
      simpa using hpre
    · simp [findSub, hpre] at h
      obtain ⟨j', hj', rfl⟩ := h
      simpa using ih j' hj'

theorem findSub_first (pat : List Char) (l : List Char) (j : Nat)
    (h : findSub pat l = some j) : ∀ k, k < j → pat.isPrefixOf (l.drop k) = false := by
  induction l generalizing j with
  | nil =>
    intro k hk
    by_cases hpre : pat.isPrefixOf ([] : List Char) = true
    · simp [findSub, hpre] at h
      omega
    · simp [findSub, hpre] at h
  | cons c cs ih =>
    intro k hk
    by_cases hpre : pat.isPrefixOf (c :: cs) = true
    · simp [findSub, hpre] at h
      omega
    · simp [findSub, hpre] at h
      obtain ⟨j', hj', rfl⟩ := h
      cases k with
      | zero =>
        simp only [List.drop_zero, ← Bool.not_eq_true]
        exact hpre
      | succ k' => simpa using ih j' hj' k' (by omega)

theorem findSub_none (pat : List Char) (l : List Char)
    (h : findSub pat l = none) : ∀ k, pat.isPrefixOf (l.drop k) = false := by
  induction l with
  | nil =>
    intro k
    by_cases hpre : pat.isPrefixOf ([] : List Char) = true
    · simp [findSub, hpre] at h
    · simp only [List.drop_nil, ← Bool.not_eq_true]
      exact hpre
  | cons c cs ih =>
    intro k
    by_cases hpre : pat.isPrefixOf (c :: cs) = true
    · simp [findSub, hpre] at h
    · simp [findSub, hpre] at h
      cases k with
      | zero =>
        simp only [List.drop_zero, ← Bool.not_eq_true]
        exact hpre
      | succ k' => simpa using ih h k'

/-- The scanning loop of `find_file_marker` from the source: test a marker
candidate at offset `i` (only ever the start of a line); on failure jump to
just past the next occurrence of `NEWLINE_MARKER` and retry; when no further
candidate exists, the whole remaining text (newline-normalized) is the
before-part and there is no marker. -/
def ffm_loop (s : List Char) (i : Nat) : List Char × Option (List Char × List Char) :=
  match try_parse_marker (s.drop i) with
  | some na => (s.take i, some na)
  | none =>
    match h2 : findSub NEWLINE_MARKER (s.drop i) with
    | some j => ffm_loop s (i + j + 1)
    | none => (fix_trailing_newline s, none)
termination_by s.length - i
decreasing_by
  have hlt : j < (s.drop i).length :=
    findSub_some_lt NEWLINE_MARKER (s.drop i) j (by decide) h2
  simp only [List.length_drop] at hlt
  omega

/-- `find_file_marker` from the source: split `s` into the text before the
first valid marker line and, if one exists, the marker's name together with
the text after the marker line. -/
def find_file_marker (s : List Char) : List Char × Option (List Char × List Char) :=
  ffm_loop s 0

/-- A `File` from the source: a name and the file's content. -/
structure File where
  name : List Char
  content : List Char
deriving DecidableEq, Repr

/-- An `Archive` from the source: a leading comment plus ordered files. -/
structure Archive where
  comment : List Char
  files : List File
deriving DecidableEq, Repr

/-- `Display for File`: the marker line built from the name, a newline, then
the newline-normalized content. -/
def File.render (f : File) : List Char :=
  MARKER ++ f.name ++ MARKER_END ++ ['\n'] ++ fix_trailing_newline f.content

/-- `Display for Archive`: the newline-normalized comment followed by each
file's rendering in order. -/
def Archive.render (a : Archive) : List Char :=
  fix_trailing_newline a.comment ++ (a.files.map File.render).flatten

/-- `Archive::get`: the first file with the given name, if any. -/
def Archive.get (a : Archive) (filename : List Char) : Option File :=
  a.files.find? (fun f => f.name == filename)

/-- `Index<usize> for Archive`, i.e. `&self.files[index]`: the
out-of-bounds panic of `Vec` indexing is modelled as `none`. -/
def Archive.index (a : Archive) (i : Nat) : Option File :=
  a.files.get? i

/-- Position `p` is the start of a line of `s`: offset zero, or the offset
just after a newline.  The scanner only ever tests candidates here. -/
def lineStart (s : List Char) (p : Nat) : Prop :=
  p = 0 ∨ (0 < p ∧ s.get? (p - 1) = some '\n')

/-- A valid marker line of `s` begins at position `p`. -/
def markerAt (s : List Char) (p : Nat) : Prop :=
  lineStart s p ∧ (try_parse_marker (s.drop p)).isSome = true

instance (s : List Char) (p : Nat) : Decidable (lineStart s p) := by
  unfold lineStart; infer_instance

instance (s : List Char) (p : Nat) : Decidable (markerAt s p) := by
  unfold markerAt lineStart; infer_instance

theorem cutNL_snd_lt (u : List Char) (hne : u ≠ []) : (cutNL u).2.length < u.length := by
  unfold cutNL
  cases hf : findSub ['\n'] u with
  | none => simpa using List.length_pos.mpr hne
  | some i =>
    simp only [List.length_drop]
    have := List.length_pos.mpr hne
    omega

/-- `try_parse_marker`, restated as one equation: a candidate is a marker
line exactly when it starts with `MARKER`, its line (cut at the terminating
newline) ends with `MARKER_END`, and that line is at least `MARKER_LEN`
characters long; the name is the trimmed interior. -/
theorem tpm_eq (u : List Char) : try_parse_marker u =
    if MARKER.isPrefixOf u = true ∧ MARKER_END.isSuffixOf (cutNL u).1 = true ∧
        MARKER_LEN ≤ (cutNL u).1.length
    then some (trim (((cutNL u).1.drop MARKER.length).take
        ((cutNL u).1.length - MARKER.length - MARKER_END.length)), (cutNL u).2)
    else none := by
  unfold try_parse_marker
  by_cases h1 : MARKER.isPrefixOf u = true
  · by_cases h2 : MARKER_END.isSuffixOf (cutNL u).1 = true ∧ MARKER_LEN ≤ (cutNL u).1.length
    · simp [h1, h2.1, h2.2]
    · simp [h1, h2]
  · simp [h1]

theorem tpm_some (u n r : List Char) (h : try_parse_marker u = some (n, r)) :
    MARKER.isPrefixOf u = true ∧ MARKER_END.isSuffixOf (cutNL u).1 = true ∧
      MARKER_LEN ≤ (cutNL u).1.length ∧
      n = trim (((cutNL u).1.drop MARKER.length).take
        ((cutNL u).1.length - MARKER.length - MARKER_END.length)) ∧
      r = (cutNL u).2 := by
  rw [tpm_eq] at h
  split at h
  case isTrue hc =>
    injection h with h'
    injection h' with hn hr
    exact ⟨hc.1, hc.2.1, hc.2.2, hn.symm, hr.symm⟩
  case isFalse => exact absurd h (by simp)

theorem tpm_ne_nil (u n r : List Char) (h : try_parse_marker u = some (n, r)) : u ≠ [] := by
  intro he
  subst he
  simp [try_parse_marker, MARKER, List.isPrefixOf] at h

theorem tpm_rest_lt (u n r : List Char) (h : try_parse_marker u = some (n, r)) :
    r.length < u.length := by
  have h' := (tpm_some u n r h).2.2.2.2
  rw [h']
  exact cutNL_snd_lt u (tpm_ne_nil u n r h)

theorem ffm_loop_rest_lt (k : Nat) : ∀ (s : List Char) (i : Nat), s.length - i ≤ k →
    ∀ c n r, ffm_loop s i = (c, some (n, r)) → r.length < s.length := by
  induction k with
  | zero =>
    intro s i hk c n r h
    rw [ffm_loop.eq_def] at h
    split at h
    case h_1 na heq =>
      injection h with h1 h2
      injection h2 with h2
      subst h2
      have := tpm_rest_lt (s.drop i) n r heq
      simp only [List.length_drop] at this
      omega
    case h_2 heq =>
      split at h
      case h_1 j hj =>
        have := findSub_some_lt NEWLINE_MARKER (s.drop i) j (by decide) hj
        simp only [List.length_drop] at this
        omega
      case h_2 => simp at h
  | succ k ih =>
    intro s i hk c n r h
    rw [ffm_loop.eq_def] at h
    split at h
    case h_1 na heq =>
      injection h with h1 h2
      injection h2 with h2
      subst h2
      have := tpm_rest_lt (s.drop i) n r heq
      simp only [List.length_drop] at this
      omega
    case h_2 heq =>
      split at h
      case h_1 j hj =>
        have hjl := findSub_some_lt NEWLINE_MARKER (s.drop i) j (by decide) hj
        simp only [List.length_drop] at hjl
        exact ih s (i + j + 1) (by omega) c n r h
      case h_2 => simp at h
  
theorem ffm_rest_lt (s c n r : List Char) (h : find_file_marker s = (c, some (n, r))) :
    r.length < s.length :=
  ffm_loop_rest_lt s.length s 0 (by omega) c n r h

/-- The `while let` loop of `From<&str> for Archive`: given the name of the
marker just found and the text after its marker line, scan for the next
marker; everything before it is this file's content, and the loop continues
with the next marker's name. -/
def parseLoop (name : List Char) (after : List Char) : List File :=
  match _h : find_file_marker after with
  | (content, none) => [⟨name, content⟩]
  | (content, some (n, rest)) => ⟨name, content⟩ :: parseLoop n rest
termination_by after.length
decreasing_by
  exact ffm_rest_lt after content n rest _h

/-- `From<&str> for Archive`: parse an archive from text.  Total by
construction — parsing exposes no failure case. -/
def archiveFrom (s : List Char) : Archive :=
  match find_file_marker s with
  | (comment, none) => ⟨comment, []⟩
  | (comment, some (n, rest)) => ⟨comment, parseLoop n rest⟩

theorem tpm_nil : try_parse_marker [] = none := by decide

theorem ffm_loop_found (s : List Char) (i : Nat) (na : List Char × List Char)
    (h : try_parse_marker (s.drop i) = some na) : ffm_loop s i = (s.take i, some na) := by
  rw [ffm_loop.eq_def]
  split
  case h_1 na' heq =>
    rw [h] at heq
    injection heq with heq
    rw [heq]
  case h_2 heq => rw [h] at heq; exact absurd heq (by simp)

theorem ffm_loop_jump (s : List Char) (i j i' : Nat)
    (h : try_parse_marker (s.drop i) = none)
    (h2 : findSub NEWLINE_MARKER (s.drop i) = some j)
    (h3 : i + j + 1 = i') : ffm_loop s i = ffm_loop s i' := by
  subst h3
  rw [ffm_loop.eq_def]
  split
  case h_1 na' heq => rw [h] at heq; exact absurd heq (by simp)
  case h_2 heq =>
    split
    case h_1 j' hj =>
      rw [h2] at hj
      injection hj with hj
      rw [hj]
    case h_2 hj => rw [h2] at hj; exact absurd hj (by simp)

theorem ffm_loop_stop (s : List Char) (i : Nat)
    (h : try_parse_marker (s.drop i) = none)
    (h2 : findSub NEWLINE_MARKER (s.drop i) = none) :
    ffm_loop s i = (fix_trailing_newline s, none) := by
  rw [ffm_loop.eq_def]
  split
  case h_1 na' heq => rw [h] at heq; exact absurd heq (by simp)
  case h_2 heq =>
    split
    case h_1 j' hj => rw [h2] at hj; exact absurd hj (by simp)
    case h_2 hj => rfl

theorem ffm_def (s : List Char) : find_file_marker s = ffm_loop s 0 := rfl

theorem parseLoop_last (name after content : List Char)
    (h : find_file_marker after = (content, none)) : parseLoop name after = [⟨name, content⟩] := by
  rw [parseLoop.eq_def]
  split
  case h_1 c heq =>
    rw [h] at heq
    injection heq with h1 h2
    rw [h1]
  case h_2 c n rest heq => rw [h] at heq; injection heq with h1 h2; exact absurd h2 (by simp)

theorem parseLoop_cons (name after content n rest : List Char)
    (h : find_file_marker after = (content, some (n, rest))) :
    parseLoop name after = ⟨name, content⟩ :: parseLoop n rest := by
  rw [parseLoop.eq_def]
  split
  case h_1 c heq => rw [h] at heq; injection heq with h1 h2; exact absurd h2 (by simp)
  case h_2 c n' rest' heq =>
    rw [h] at heq
    injection heq with h1 h2
    injection h2 with h2
    injection h2 with h2a h2b
    rw [h1, h2a, h2b]

theorem archiveFrom_none (s c : List Char) (h : find_file_marker s = (c, none)) :
    archiveFrom s = ⟨c, []⟩ := by
  unfold archiveFrom
  rw [h]

theorem archiveFrom_some (s c n rest : List Char)
    (h : find_file_marker s = (c, some (n, rest))) :
    archiveFrom s = ⟨c, parseLoop n rest⟩ := by
  unfold archiveFrom
  rw [h]

theorem drop_of_get? (s : List Char) (q : Nat) (c : Char) (h : s.get? q = some c) :
    s.drop q = c :: s.drop (q + 1) := by
  rw [List.get?_eq_getElem?] at h
  obtain ⟨hq, hc⟩ := List.getElem?_eq_some.mp h
  rw [List.drop_eq_getElem_cons hq, hc]

theorem prefixOf_head (c : Char) (p t : List Char) (h : (c :: p).isPrefixOf t = true) :
    t.head? = some c := by
  cases t with
  | nil => simp [List.isPrefixOf] at h
  | cons b bs =>
    simp [List.isPrefixOf] at h
    simp [h.1]

theorem newline_marker_eq : NEWLINE_MARKER = '\n' :: MARKER := by decide

theorem markerAt_lt (s : List Char) (p : Nat) (h : markerAt s p) : p < s.length := by
  by_contra hge
  push_neg at hge
  have hd : s.drop p = [] := List.drop_eq_nil_of_le hge
  have := h.2
  rw [hd, tpm_nil] at this
  simp at this

theorem markerAt_newline_marker (s : List Char) (p : Nat) (hp : 0 < p) (h : markerAt s p) :
    NEWLINE_MARKER.isPrefixOf (s.drop (p - 1)) = true := by
  obtain ⟨hls, hsome⟩ := h
  rcases hls with h0 | ⟨hpos, hnl⟩
  · omega
  · obtain ⟨na, hna⟩ := Option.isSome_iff_exists.mp hsome
    obtain ⟨n, r⟩ := na
    have hpre := (tpm_some _ n r hna).1
    have hdrop : s.drop (p - 1) = '\n' :: s.drop p := by
      have := drop_of_get? s (p - 1) '\n' hnl
      rwa [Nat.sub_add_cancel hp] at this
    rw [newline_marker_eq, hdrop]
    simpa [List.isPrefixOf] using hpre

theorem no_marker_between (s : List Char) (i j : Nat)
    (h : try_parse_marker (s.drop i) = none)
    (h2 : findSub NEWLINE_MARKER (s.drop i) = some j) :
    ∀ p, i ≤ p → p < i + j + 1 → ¬ markerAt s p := by
  intro p hip hpj hm
  rcases Nat.eq_or_lt_of_le hip with heq | hlt
  · subst heq
    have := hm.2
    rw [h] at this
    simp at this
  · have hnm := markerAt_newline_marker s p (by omega) hm
    have hfirst := findSub_first NEWLINE_MARKER (s.drop i) j h2 (p - 1 - i) (by omega)
    rw [List.drop_drop] at hfirst
    have hidx : i + (p - 1 - i) = p - 1 := by omega
    rw [hidx] at hfirst
    rw [hnm] at hfirst
    exact absurd hfirst (by simp)

theorem no_marker_beyond (s : List Char) (i : Nat)
    (h : try_parse_marker (s.drop i) = none)
    (h2 : findSub NEWLINE_MARKER (s.drop i) = none) :
    ∀ p, i ≤ p → ¬ markerAt s p := by
  intro p hip hm
  rcases Nat.eq_or_lt_of_le hip with heq | hlt
  · subst heq
    have := hm.2
    rw [h] at this
    simp at this
  · have hnm := markerAt_newline_marker s p (by omega) hm
    have hnone := findSub_none NEWLINE_MARKER (s.drop i) h2 (p - 1 - i)
    rw [List.drop_drop] at hnone
    have hidx : i + (p - 1 - i) = p - 1 := by omega
    rw [hidx] at hnone
    rw [hnm] at hnone
    exact absurd hnone (by simp)

theorem ffm_loop_char_aux : ∀ (k : Nat) (s : List Char) (i : Nat), s.length - i ≤ k →
    lineStart s i → (∀ p, p < i → ¬ markerAt s p) →
    (∃ m, markerAt s m ∧ (∀ p, p < m → ¬ markerAt s p) ∧
      ffm_loop s i = (s.take m, try_parse_marker (s.drop m))) ∨
    ((∀ p, ¬ markerAt s p) ∧ ffm_loop s i = (fix_trailing_newline s, none)) := by
  intro k
  induction k using Nat.strong_induction_on with
  | _ k ih =>
    intro s i hk hls hprev
    cases hsome : try_parse_marker (s.drop i) with
    | some na =>
      refine Or.inl ⟨i, ⟨hls, by rw [hsome]; rfl⟩, hprev, ?_⟩
      rw [ffm_loop_found s i na hsome, hsome]
    | none =>
      cases hfs : findSub NEWLINE_MARKER (s.drop i) with
      | some j =>
        have hjl := findSub_some_lt NEWLINE_MARKER (s.drop i) j (by decide) hfs
        simp only [List.length_drop] at hjl
        have hnb := no_marker_between s i j hsome hfs
        have hnl : s.get? (i + j) = some '\n' := by
          have hdr := findSub_drop NEWLINE_MARKER (s.drop i) j hfs
          rw [List.drop_drop] at hdr
          rw [newline_marker_eq] at hdr
          have := prefixOf_head '\n' MARKER (s.drop (i + j)) hdr
          rw [List.head?_drop] at this
          rw [List.get?_eq_getElem?]
          exact this
        have hls' : lineStart s (i + j + 1) := Or.inr ⟨by omega, by simpa using hnl⟩
        have hprev' : ∀ p, p < i + j + 1 → ¬ markerAt s p := by
          intro p hp
          by_cases hpi : p < i
          · exact hprev p hpi
          · exact hnb p (by omega) hp
        have hres := ih (s.length - (i + j + 1)) (by omega) s (i + j + 1) (by omega) hls' hprev'
        rwa [ffm_loop_jump s i j (i + j + 1) hsome hfs rfl]
      | none =>
        refine Or.inr ⟨?_, ffm_loop_stop s i hsome hfs⟩
        intro p hm
        by_cases hpi : p < i
        · exact hprev p hpi hm
        · exact no_marker_beyond s i hsome hfs p (by omega) hm

theorem ffm_char (s : List Char) :
    (∃ m, markerAt s m ∧ (∀ p, p < m → ¬ markerAt s p) ∧
      find_file_marker s = (s.take m, try_parse_marker (s.drop m))) ∨
    ((∀ p, ¬ markerAt s p) ∧ find_file_marker s = (fix_trailing_newline s, none)) :=
  ffm_loop_char_aux s.length s 0 (by omega) (Or.inl rfl) (fun p hp => absurd hp (Nat.not_lt_zero p))

theorem ffm_at (s : List Char) (m : Nat) (hm : markerAt s m)
    (hmin : ∀ p, p < m → ¬ markerAt s p) :
    find_file_marker s = (s.take m, try_parse_marker (s.drop m)) := by
  rcases ffm_char s with ⟨m', hm', hmin', heq⟩ | ⟨hall, _⟩
  · have hmm : m' = m := by
      by_contra hne
      rcases Nat.lt_or_ge m' m with hlt | hge
      · exact hmin m' hlt hm'
      · exact hmin' m (by omega) hm
    rwa [hmm] at heq
  · exact absurd hm (hall m)

theorem ffm_none (s : List Char) (hall : ∀ p, ¬ markerAt s p) :
    find_file_marker s = (fix_trailing_newline s, none) := by
  rcases ffm_char s with ⟨m, hm, _, _⟩ | ⟨_, heq⟩
  · exact absurd hm (hall m)
  · exact heq

theorem dropWhile_head_false (p : Char → Bool) (l : List Char) (c : Char) (t : List Char)
    (h : l.dropWhile p = c :: t) : p c = false := by
  induction l with
  | nil => simp at h
  | cons a as ih =>
    by_cases hp : p a = true
    · rw [List.dropWhile_cons, if_pos hp] at h
      exact ih h
    · rw [List.dropWhile_cons, if_neg hp] at h
      injection h with h1 h2
      subst h1
      simpa using hp

theorem dropWhile_cons_self (p : Char → Bool) (c : Char) (t : List Char)
    (h : p c = false) : (c :: t).dropWhile p = c :: t := by
  rw [List.dropWhile_cons, if_neg (by simp [h])]

theorem dropWhile_append_singleton (p : Char → Bool) (l : List Char) (c : Char)
    (h : p c = false) : (l ++ [c]).dropWhile p = l.dropWhile p ++ [c] := by
  induction l with
  | nil => simp [dropWhile_cons_self p c [] h]
  | cons a as ih =>
    by_cases hp : p a = true
    · simp only [List.cons_append, List.dropWhile_cons, if_pos hp]
      exact ih
    · simp only [List.cons_append, List.dropWhile_cons, if_neg hp]

theorem trim_nil : trim [] = [] := rfl

theorem trim_head (s : List Char) (c : Char) (h : (trim s).head? = some c) :
    isRustWhitespace c = false := by
  unfold trim at h
  cases hA : s.dropWhile isRustWhitespace with
  | nil => rw [hA] at h; simp at h
  | cons a t' =>
    have ha := dropWhile_head_false isRustWhitespace s a t' hA
    rw [hA, List.reverse_cons, dropWhile_append_singleton _ _ _ ha,
      List.reverse_append] at h
    simp at h
    rw [← h]
    exact ha

theorem trim_last (s : List Char) (c : Char) (h : (trim s).getLast? = some c) :
    isRustWhitespace c = false := by
  unfold trim at h
  rw [List.getLast?_reverse] at h
  cases hB : (s.dropWhile isRustWhitespace).reverse.dropWhile isRustWhitespace with
  | nil => rw [hB] at h; simp at h
  | cons b t =>
    rw [hB] at h
    simp at h
    rw [← h]
    exact dropWhile_head_false isRustWhitespace _ b t hB

theorem trim_of_clean (l : List Char)
    (h1 : ∀ c, l.head? = some c → isRustWhitespace c = false)
    (h2 : ∀ c, l.getLast? = some c → isRustWhitespace c = false) : trim l = l := by
  cases l with
  | nil => rfl
  | cons a t =>
    have ha := h1 a rfl
    unfold trim
    rw [dropWhile_cons_self _ _ _ ha]
    cases hrev : (a :: t).reverse with
    | nil => simp at hrev
    | cons c r =>
      have hc : (a :: t).getLast? = some c := by
        rw [← List.head?_reverse, hrev]; rfl
      rw [dropWhile_cons_self _ _ _ (h2 c hc), ← hrev, List.reverse_reverse]

theorem trim_idem (s : List Char) : trim (trim s) = trim s :=
  trim_of_clean (trim s) (trim_head s) (trim_last s)

theorem mem_of_mem_trim (x : Char) (s : List Char) (h : x ∈ trim s) : x ∈ s := by
  unfold trim at h
  rw [List.mem_reverse] at h
  have h2 := (List.dropWhile_sublist _).subset h
  rw [List.mem_reverse] at h2
  exact (List.dropWhile_sublist _).subset h2

theorem findChar_none (c : Char) (l : List Char) (h : c ∉ l) : findSub [c] l = none := by
  induction l with
  | nil => rfl
  | cons a as ih =>
    have hca : ¬ ([c].isPrefixOf (a :: as) = true) := by
      simp [List.isPrefixOf]
      intro hc
      exact absurd (hc ▸ List.mem_cons_self a as) h
    rw [findSub, if_neg hca, ih (fun hm => h (List.mem_cons_of_mem a hm))]
    rfl

theorem findChar_append (c : Char) (L Z : List Char) (h : c ∉ L) :
    findSub [c] (L ++ c :: Z) = some L.length := by
  induction L with
  | nil =>
    have : [c].isPrefixOf (c :: Z) = true := by simp [List.isPrefixOf]
    simp [findSub, this]
  | cons a as ih =>
    have hca : ¬ ([c].isPrefixOf (a :: (as ++ c :: Z)) = true) := by
      simp [List.isPrefixOf]
      intro hc
      exact absurd (hc ▸ List.mem_cons_self a as) h
    rw [List.cons_append, findSub, if_neg hca, ih (fun hm => h (List.mem_cons_of_mem a hm))]
    rfl

theorem cutNL_no_nl (u : List Char) (h : '\n' ∉ u) : cutNL u = (u, []) := by
  unfold cutNL
  rw [findChar_none '\n' u h]

theorem cutNL_line (L Z : List Char) (h : '\n' ∉ L) : cutNL (L ++ '\n' :: Z) = (L, Z) := by
  unfold cutNL
  rw [findChar_append '\n' L Z h]
  show ((L ++ '\n' :: Z).take L.length, (L ++ '\n' :: Z).drop (L.length + 1)) = (L, Z)
  have h1 : (L ++ '\n' :: Z).take L.length = L := by
    rw [List.take_append_of_le_length (Nat.le_refl _), List.take_length]
  have h2 : (L ++ '\n' :: Z).drop (L.length + 1) = Z := by
    have : L ++ '\n' :: Z = (L ++ ['\n']) ++ Z := by simp
    rw [this]
    have hlen : L.length + 1 = (L ++ ['\n']).length := by simp
    rw [hlen, List.drop_left]
  rw [h1, h2]

theorem get?_append_left (l₁ l₂ : List Char) (n : Nat) (h : n < l₁.length) :
    (l₁ ++ l₂).get? n = l₁.get? n := by
  rw [List.get?_eq_getElem?, List.get?_eq_getElem?, List.getElem?_append, if_pos h]

theorem get?_take (l : List Char) (m n : Nat) (h : n < m) :
    (l.take m).get? n = l.get? n := by
  rw [List.get?_eq_getElem?, List.get?_eq_getElem?, List.getElem?_take, if_pos h]

theorem mem_of_getLast? (l : List Char) (c : Char) (h : l.getLast? = some c) : c ∈ l := by
  rw [List.getLast?_eq_getElem?] at h
  exact List.get?_mem (by rw [List.get?_eq_getElem?]; exact h)

theorem marker_prefix_append (t X : List Char) (h : '\n' ∈ t) :
    MARKER.isPrefixOf (t ++ X) = MARKER.isPrefixOf t := by
  have hM : MARKER = '-' :: '-' :: ' ' :: [] := by decide
  cases t with
  | nil => simp at h
  | cons a t1 =>
    cases t1 with
    | nil =>
      simp at h
      subst h
      simp [hM, List.isPrefixOf]
    | cons b t2 =>
      cases t2 with
      | nil =>
        simp at h
        rcases h with h | h
        · subst h
          simp [hM, List.isPrefixOf]
        · subst h
          simp [hM, List.isPrefixOf]
      | cons c' t3 =>
        simp [hM, List.isPrefixOf]

theorem marker_prefix_append_nl (t : List Char) :
    MARKER.isPrefixOf (t ++ ['\n']) = MARKER.isPrefixOf t := by
  have hM : MARKER = '-' :: '-' :: ' ' :: [] := by decide
  cases t with
  | nil => simp [hM, List.isPrefixOf]
  | cons a t1 =>
    cases t1 with
    | nil => simp [hM, List.isPrefixOf]
    | cons b t2 =>
      cases t2 with
      | nil => simp [hM, List.isPrefixOf]
      | cons c' t3 => simp [hM, List.isPrefixOf]

theorem findChar_mem_ne_none (c : Char) (l : List Char) (hm : c ∈ l) :
    findSub [c] l ≠ none := by
  intro hf
  obtain ⟨k, hk⟩ := List.mem_iff_get?.mp hm
  have := findSub_none [c] l hf k
  rw [drop_of_get? l k c hk] at this
  simp [List.isPrefixOf] at this

theorem findChar_append_of_mem (c : Char) (t X : List Char) (h : c ∈ t) :
    findSub [c] (t ++ X) = findSub [c] t := by
  induction t with
  | nil => simp at h
  | cons a as ih =>
    have hpre : ∀ (y : List Char), [c].isPrefixOf (a :: y) = (c == a) := by
      intro y
      simp [List.isPrefixOf]
    rw [List.cons_append, findSub, findSub, hpre, hpre]
    by_cases hc : (c == a) = true
    · simp [hc]
    · simp only [hc, Bool.false_eq_true, if_false]
      have hmem : c ∈ as := by
        rcases List.mem_cons.mp h with h1 | h1
        · exact absurd (by simp [h1]) hc
        · exact h1
      rw [ih hmem]

theorem cutNL_append_of_mem (t X : List Char) (h : '\n' ∈ t) :
    (cutNL (t ++ X)).1 = (cutNL t).1 ∧ (cutNL (t ++ X)).2 = (cutNL t).2 ++ X := by
  unfold cutNL
  cases hf : findSub ['\n'] t with
  | none => exact absurd hf (findChar_mem_ne_none '\n' t h)
  | some i =>
    rw [findChar_append_of_mem '\n' t X h, hf]
    have hi : i < t.length := findSub_some_lt ['\n'] t i (by decide) hf
    constructor
    · simp only
      rw [List.take_append_of_le_length (by omega)]
    · simp only
      rw [List.drop_append_of_le_length (by omega)]

theorem tpm_append (t X : List Char) (h : '\n' ∈ t) :
    try_parse_marker (t ++ X) =
      Option.map (fun q : List Char × List Char => (q.1, q.2 ++ X)) (try_parse_marker t) := by
  rw [tpm_eq (t ++ X), tpm_eq t]
  obtain ⟨h1, h2⟩ := cutNL_append_of_mem t X h
  rw [h1, h2, marker_prefix_append t X h]
  split_ifs with hc
  · rfl
  · rfl

theorem tpm_append_nl (t : List Char) (h : '\n' ∉ t) :
    try_parse_marker (t ++ ['\n']) = try_parse_marker t := by
  rw [tpm_eq (t ++ ['\n']), tpm_eq t]
  have hcut : cutNL (t ++ ['\n']) = (t, []) := by
    unfold cutNL
    rw [findChar_append '\n' t [] h]
    show ((t ++ ['\n']).take t.length, (t ++ ['\n']).drop (t.length + 1)) = (t, [])
    rw [List.take_left, List.drop_eq_nil_of_le (by simp)]
  have hcut2 : cutNL t = (t, []) := cutNL_no_nl t h
  rw [hcut, hcut2, marker_prefix_append_nl t]

theorem tpm_append_nl_none (t : List Char) :
    try_parse_marker (t ++ ['\n']) = none ↔ try_parse_marker t = none := by
  by_cases h : '\n' ∈ t
  · rw [tpm_append t ['\n'] h]
    exact Option.map_eq_none'
  · rw [tpm_append_nl t h]

/-- A normalized marker-free text: empty or newline-terminated, with no
valid marker line at any line start.  Both the comment and every file
content produced by parsing satisfy this. -/
def nfText (c : List Char) : Prop :=
  (c = [] ∨ c.getLast? = some '\n') ∧
    ∀ p, lineStart c p → try_parse_marker (c.drop p) = none

theorem not_markerAt_none (s : List Char) (p : Nat) (hls : lineStart s p)
    (h : ¬ markerAt s p) : try_parse_marker (s.drop p) = none := by
  cases hh : try_parse_marker (s.drop p) with
  | none => rfl
  | some na => exact absurd ⟨hls, by rw [hh]; rfl⟩ h

theorem nfText_nil : nfText [] :=
  ⟨Or.inl rfl, fun p _ => by simp [tpm_nil]⟩

theorem fix_of_nf (s : List Char) (h : s = [] ∨ s.getLast? = some '\n') :
    fix_trailing_newline s = s := by
  unfold fix_trailing_newline
  rw [if_pos h]

theorem take_nf (s : List Char) (m : Nat) (hm : markerAt s m)
    (hmin : ∀ p, p < m → ¬ markerAt s p) : nfText (s.take m) := by
  have hmlt := markerAt_lt s m hm
  rcases Nat.eq_zero_or_pos m with h0 | hpos
  · subst h0
    rw [List.take_zero]
    exact nfText_nil
  · have hlenTake : (s.take m).length = m := by
      rw [List.length_take]
      exact min_eq_left (by omega)
    have hnl : s.get? (m - 1) = some '\n' := by
      rcases hm.1 with h0 | ⟨_, hn⟩
      · omega
      · exact hn
    have hlast : (s.take m).getLast? = some '\n' := by
      rw [List.getLast?_eq_getElem?, hlenTake, ← List.get?_eq_getElem?, get?_take s m (m - 1) (by omega)]
      exact hnl
    refine ⟨Or.inr hlast, ?_⟩
    intro p hls
    by_cases hpm : m ≤ p
    · have hd : (s.take m).drop p = [] := List.drop_eq_nil_of_le (by omega)
      rw [hd]
      exact tpm_nil
    · push_neg at hpm
      have hlsS : lineStart s p := by
        rcases hls with h0 | ⟨hpp, hget⟩
        · exact Or.inl h0
        · refine Or.inr ⟨hpp, ?_⟩
          rwa [get?_take s m (p - 1) (by omega)] at hget
      have hnone := not_markerAt_none s p hlsS (hmin p hpm)
      have hsplit : s.drop p = (s.take m).drop p ++ s.drop m := by
        conv_lhs => rw [← List.take_append_drop m s]
        rw [List.drop_append_of_le_length (by omega)]
      have hmem : '\n' ∈ (s.take m).drop p := by
        have hlast2 : ((s.take m).drop p).getLast? = some '\n' := by
          rw [List.getLast?_drop, if_neg (by omega)]
          exact hlast
        exact mem_of_getLast? _ '\n' hlast2
      have hloc := tpm_append ((s.take m).drop p) (s.drop m) hmem
      rw [← hsplit, hnone] at hloc
      exact Option.map_eq_none'.mp hloc.symm

theorem fix_nf (s : List Char) (hall : ∀ p, ¬ markerAt s p) :
    nfText (fix_trailing_newline s) := by
  unfold fix_trailing_newline
  split_ifs with hcase
  · exact ⟨hcase, fun p hls => not_markerAt_none s p hls (hall p)⟩
  · push_neg at hcase
    obtain ⟨hne, hnl⟩ := hcase
    have hslen : 0 < s.length := List.length_pos.mpr hne
    refine ⟨Or.inr (List.getLast?_concat s), ?_⟩
    intro p hls
    rcases Nat.lt_or_ge p s.length with hplt | hpge
    · have hlsS : lineStart s p := by
        rcases hls with h0 | ⟨hpp, hget⟩
        · exact Or.inl h0
        · refine Or.inr ⟨hpp, ?_⟩
          rwa [get?_append_left s ['\n'] (p - 1) (by omega)] at hget
      have hnone := not_markerAt_none s p hlsS (hall p)
      have hdropA : (s ++ ['\n']).drop p = s.drop p ++ ['\n'] :=
        List.drop_append_of_le_length (by omega)
      rw [hdropA]
      rw [tpm_append_nl_none (s.drop p)]
      exact hnone
    · rcases Nat.lt_or_ge s.length p with hplt2 | hpge2
      · have hd : (s ++ ['\n']).drop p = [] := List.drop_eq_nil_of_le (by simp; omega)
        rw [hd]
        exact tpm_nil
      · have hpe : p = s.length := by omega
        subst hpe
        rcases hls with h0 | ⟨hpp, hget⟩
        · omega
        · rw [get?_append_left s ['\n'] (s.length - 1) (by omega)] at hget
          have hl : s.getLast? = some '\n' := by
            rw [List.getLast?_eq_getElem?, ← List.get?_eq_getElem?]
            exact hget
          exact absurd hl hnl

theorem ffm_first_nf (s : List Char) : nfText (find_file_marker s).1 := by
  rcases ffm_char s with ⟨m, hm, hmin, heq⟩ | ⟨hall, heq⟩
  · rw [heq]
    exact take_nf s m hm hmin
  · rw [heq]
    exact fix_nf s hall

theorem cutNL_fst_no_nl (u : List Char) : '\n' ∉ (cutNL u).1 := by
  unfold cutNL
  cases hf : findSub ['\n'] u with
  | none =>
    intro hmem
    exact findChar_mem_ne_none '\n' u hmem hf
  | some i =>
    intro hmem
    obtain ⟨k, hk⟩ := List.mem_iff_get?.mp hmem
    have hklen := (List.getElem?_eq_some.mp (by rw [← List.get?_eq_getElem?]; exact hk)).1
    have hki : k < i := by
      rw [List.length_take] at hklen
      exact lt_of_lt_of_le hklen (min_le_left _ _)
    rw [get?_take u i k hki] at hk
    have hfirst := findSub_first ['\n'] u i hf k hki
    rw [drop_of_get? u k '\n' hk] at hfirst
    simp [List.isPrefixOf] at hfirst

theorem tpm_name (u n r : List Char) (h : try_parse_marker u = some (n, r)) :
    trim n = n ∧ '\n' ∉ n := by
  have hn := (tpm_some u n r h).2.2.2.1
  constructor
  · rw [hn, trim_idem]
  · rw [hn]
    intro hmem
    have h1 := mem_of_mem_trim '\n' _ hmem
    have h2 := (List.take_sublist _ _).subset h1
    have h3 := (List.drop_sublist _ _).subset h2
    exact cutNL_fst_no_nl u h3

theorem ffm_some_tpm (s c n r : List Char) (h : find_file_marker s = (c, some (n, r))) :
    ∃ u, try_parse_marker u = some (n, r) := by
  rcases ffm_char s with ⟨m, _, _, heq⟩ | ⟨_, heq⟩
  · rw [h] at heq
    injection heq with h1 h2
    exact ⟨s.drop m, h2.symm⟩
  · rw [h] at heq
    injection heq with h1 h2
    exact absurd h2 (by simp)

/-- Invariant of every file produced by parsing: normalized marker-free
content and a trimmed, newline-free name. -/
def goodFile (f : File) : Prop :=
  nfText f.content ∧ trim f.name = f.name ∧ '\n' ∉ f.name

theorem parseLoop_inv_aux : ∀ (k : Nat) (after n : List Char), after.length ≤ k →
    trim n = n → '\n' ∉ n → ∀ f ∈ parseLoop n after, goodFile f := by
  intro k
  induction k using Nat.strong_induction_on with
  | _ k ih =>
    intro after n hk hn hnl f hf
    rcases hffm : find_file_marker after with ⟨content, rest⟩
    have hcontent : nfText content := by
      have := ffm_first_nf after
      rw [hffm] at this
      exact this
    cases rest with
    | none =>
      rw [parseLoop_last n after content hffm] at hf
      simp at hf
      subst hf
      exact ⟨hcontent, hn, hnl⟩
    | some nr =>
      obtain ⟨n', rest'⟩ := nr
      rw [parseLoop_cons n after content n' rest' hffm] at hf
      rcases List.mem_cons.mp hf with h1 | h1
      · subst h1
        exact ⟨hcontent, hn, hnl⟩
      · have hlt := ffm_rest_lt after content n' rest' hffm
        obtain ⟨u, hu⟩ := ffm_some_tpm after content n' rest' hffm
        obtain ⟨hn', hnl'⟩ := tpm_name u n' rest' hu
        exact ih rest'.length (by omega) rest' n' (Nat.le_refl _) hn' hnl' f h1

theorem archiveFrom_inv (s : List Char) :
    nfText (archiveFrom s).comment ∧ ∀ f ∈ (archiveFrom s).files, goodFile f := by
  rcases hffm : find_file_marker s with ⟨c, rest⟩
  have hc : nfText c := by
    have := ffm_first_nf s
    rw [hffm] at this
    exact this
  cases rest with
  | none =>
    rw [archiveFrom_none s c hffm]
    exact ⟨hc, by simp⟩
  | some nr =>
    obtain ⟨n, r⟩ := nr
    rw [archiveFrom_some s c n r hffm]
    refine ⟨hc, ?_⟩
    intro f hf
    obtain ⟨u, hu⟩ := ffm_some_tpm s c n r hffm
    obtain ⟨hn, hnl⟩ := tpm_name u n r hu
    exact parseLoop_inv_aux r.length r n (Nat.le_refl _) hn hnl f hf

theorem ffm_prepend (c u : List Char) (hc : nfText c) (na : List Char × List Char)
    (hu : try_parse_marker u = some na) :
    find_file_marker (c ++ u) = (c, some na) := by
  have hm : markerAt (c ++ u) c.length := by
    refine ⟨?_, ?_⟩
    · rcases hc.1 with hnil | hlast
      · subst hnil
        exact Or.inl rfl
      · have hcne : c ≠ [] := by
          intro h
          rw [h] at hlast
          simp at hlast
        have hclen : 0 < c.length := List.length_pos.mpr hcne
        refine Or.inr ⟨by omega, ?_⟩
        rw [get?_append_left c u (c.length - 1) (by omega)]
        rw [List.getLast?_eq_getElem?, ← List.get?_eq_getElem?] at hlast
        exact hlast
    · rw [List.drop_left, hu]
      rfl
  have hmin : ∀ p, p < c.length → ¬ markerAt (c ++ u) p := by
    intro p hp hmk
    obtain ⟨hls, hsome⟩ := hmk
    have hlsC : lineStart c p := by
      rcases hls with h0 | ⟨hpp, hget⟩
      · exact Or.inl h0
      · refine Or.inr ⟨hpp, ?_⟩
        rwa [get?_append_left c u (p - 1) (by omega)] at hget
    have hnone := hc.2 p hlsC
    have hlast : c.getLast? = some '\n' := by
      rcases hc.1 with hnil | hl
      · rw [hnil] at hp
        simp at hp
      · exact hl
    have hmem : '\n' ∈ c.drop p := by
      have hl2 : (c.drop p).getLast? = some '\n' := by
        rw [List.getLast?_drop, if_neg (by omega)]
        exact hlast
      exact mem_of_getLast? _ '\n' hl2
    have hdrop : (c ++ u).drop p = c.drop p ++ u :=
      List.drop_append_of_le_length (by omega)
    rw [hdrop, tpm_append (c.drop p) u hmem, hnone] at hsome
    simp at hsome
  have hres := ffm_at (c ++ u) c.length hm hmin
  rw [List.take_left, List.drop_left, hu] at hres
  exact hres

theorem ffm_nomarker (c : List Char) (hc : nfText c) : find_file_marker c = (c, none) := by
  have hall : ∀ p, ¬ markerAt c p := by
    intro p hmk
    have h1 := hc.2 p hmk.1
    have h2 := hmk.2
    rw [h1] at h2
    simp at h2
  rw [ffm_none c hall, fix_of_nf c hc.1]

theorem tpm_block (n Z : List Char) (hn : trim n = n) (hnl : '\n' ∉ n) :
    try_parse_marker (MARKER ++ n ++ MARKER_END ++ '\n' :: Z) = some (n, Z) := by
  have hL : '\n' ∉ (MARKER ++ n ++ MARKER_END) := by
    intro hmem
    rcases List.mem_append.mp hmem with h1 | h1
    · rcases List.mem_append.mp h1 with h2 | h2
      · exact absurd h2 (by decide)
      · exact hnl h2
    · exact absurd h1 (by decide)
  have hcut := cutNL_line (MARKER ++ n ++ MARKER_END) Z hL
  have hpre : MARKER.isPrefixOf (MARKER ++ n ++ MARKER_END ++ '\n' :: Z) = true := by
    rw [List.isPrefixOf_iff_prefix]
    have hass : MARKER ++ n ++ MARKER_END ++ '\n' :: Z
        = MARKER ++ (n ++ MARKER_END ++ '\n' :: Z) := by
      simp [List.append_assoc]
    rw [hass]
    exact List.prefix_append _ _
  have hsfx : MARKER_END.isSuffixOf (MARKER ++ n ++ MARKER_END) = true := by
    rw [List.isSuffixOf_iff_suffix]
    exact List.suffix_append _ _
  have hlen : MARKER_LEN ≤ (MARKER ++ n ++ MARKER_END).length := by
    simp [MARKER_LEN, MARKER, MARKER_END]
  rw [tpm_eq, hcut]
  rw [if_pos ⟨hpre, hsfx, hlen⟩]
  have hd : (MARKER ++ n ++ MARKER_END).drop MARKER.length = n ++ MARKER_END := by
    rw [List.append_assoc, List.drop_left]
  have hlen2 : (MARKER ++ n ++ MARKER_END).length - MARKER.length - MARKER_END.length
      = n.length := by
    simp [MARKER, MARKER_END]
  show some (trim (((MARKER ++ n ++ MARKER_END).drop MARKER.length).take
      ((MARKER ++ n ++ MARKER_END).length - MARKER.length - MARKER_END.length)), Z)
    = some (n, Z)
  rw [hd, hlen2, List.take_left, hn]

theorem render_cons_shape (g : File) (X : List Char)
    (hfix : fix_trailing_newline g.content = g.content) :
    File.render g ++ X = MARKER ++ g.name ++ MARKER_END ++ '\n' :: (g.content ++ X) := by
  unfold File.render
  rw [hfix]
  simp [List.append_assoc]

theorem parse_blocks : ∀ (fs : List File) (f : File), goodFile f → (∀ g ∈ fs, goodFile g) →
    parseLoop f.name (f.content ++ (fs.map File.render).flatten) = f :: fs := by
  intro fs
  induction fs with
  | nil =>
    intro f hf _
    simp only [List.map_nil, List.flatten_nil, List.append_nil]
    rw [parseLoop_last f.name f.content f.content (ffm_nomarker f.content hf.1)]
  | cons g gs ih =>
    intro f hf hgs
    have hg := hgs g (List.mem_cons_self g gs)
    have hfixg : fix_trailing_newline g.content = g.content := fix_of_nf g.content hg.1.1
    have hflat : ((g :: gs).map File.render).flatten
        = File.render g ++ (gs.map File.render).flatten := by simp
    rw [hflat, render_cons_shape g _ hfixg]
    have htpm := tpm_block g.name (g.content ++ (gs.map File.render).flatten) hg.2.1 hg.2.2
    have hffm := ffm_prepend f.content _ hf.1
      (g.name, g.content ++ (gs.map File.render).flatten) htpm
    rw [parseLoop_cons f.name _ f.content g.name _ hffm]
    rw [ih g hg (fun x hx => hgs x (List.mem_cons_of_mem g hx))]

theorem render_archiveFrom (a : Archive) (hc : nfText a.comment)
    (hf : ∀ f ∈ a.files, goodFile f) : archiveFrom a.render = a := by
  obtain ⟨c, fs⟩ := a
  have hc' : nfText c := hc
  have hcfix : fix_trailing_newline c = c := fix_of_nf c hc'.1
  cases fs with
  | nil =>
    show archiveFrom (fix_trailing_newline c ++ (List.map File.render []).flatten) = ⟨c, []⟩
    rw [hcfix]
    simp only [List.map_nil, List.flatten_nil, List.append_nil]
    rw [archiveFrom_none c c (ffm_nomarker c hc')]
  | cons g gs =>
    have hg : goodFile g := hf g (List.mem_cons_self g gs)
    show archiveFrom (fix_trailing_newline c ++ ((g :: gs).map File.render).flatten)
      = ⟨c, g :: gs⟩
    have hflat : ((g :: gs).map File.render).flatten
        = File.render g ++ (gs.map File.render).flatten := by simp
    rw [hcfix, hflat, render_cons_shape g _ (fix_of_nf g.content hg.1.1)]
    have htpm := tpm_block g.name (g.content ++ (gs.map File.render).flatten) hg.2.1 hg.2.2
    rw [archiveFrom_some _ _ _ _ (ffm_prepend c _ hc' _ htpm)]
    rw [parse_blocks gs g hg (fun x hx => hf x (List.mem_cons_of_mem g hx))]

theorem find?_first_name (l : List File) (nm : List Char) (f : File)
    (h : l.find? (fun g => g.name == nm) = some f) :
    f.name = nm ∧ ∃ i, l.get? i = some f ∧
      ∀ j, j < i → ∀ g, l.get? j = some g → g.name ≠ nm := by
  induction l with
  | nil => simp [List.find?] at h
  | cons x xs ih =>
    by_cases hx : (x.name == nm) = true
    · rw [List.find?_cons_of_pos xs hx] at h
      injection h with h
      subst h
      refine ⟨beq_iff_eq.mp hx, 0, rfl, ?_⟩
      intro j hj
      omega
    · rw [List.find?_cons_of_neg xs hx] at h
      obtain ⟨hf, i, hi, hmin⟩ := ih h
      refine ⟨hf, i + 1, by simpa using hi, ?_⟩
      intro j hj g hg
      cases j with
      | zero =>
        have hgx : g = x := by
          injection hg with hg
          exact hg.symm
        subst hgx
        intro hcon
        exact hx (beq_iff_eq.mpr hcon)
      | succ j' => exact hmin j' (by omega) g (by simpa using hg)

theorem get_none_iff (a : Archive) (nm : List Char) :
    a.get nm = none ↔ ∀ f ∈ a.files, f.name ≠ nm := by
  unfold Archive.get
  rw [List.find?_eq_none]
  constructor
  · intro h f hf hc
    exact h f hf (beq_iff_eq.mpr hc)
  · intro h f hf hc
    exact h f hf (beq_iff_eq.mp hc)

theorem eval_ffm_nil : find_file_marker ([] : List Char) = ([], none) := by
  rw [ffm_def, ffm_loop_stop _ 0 (by decide) (by decide)]
  decide

theorem eval_empty : archiveFrom ([] : List Char) = ⟨[], []⟩ :=
  archiveFrom_none [] [] eval_ffm_nil

theorem eval_ffm_marker_a : find_file_marker "-- a --".toList = ([], some ("a".toList, [])) := by
  rw [ffm_def, ffm_loop_found _ 0 ("a".toList, []) (by decide)]
  decide

theorem eval_only_marker : archiveFrom "-- a --".toList = ⟨[], [⟨"a".toList, []⟩]⟩ := by
  rw [archiveFrom_some _ _ _ _ eval_ffm_marker_a, parseLoop_last _ _ _ eval_ffm_nil]

theorem eval_malformed : archiveFrom "-- x ---".toList = ⟨"-- x ---\n".toList, []⟩ := by
  have e1 : find_file_marker "-- x ---".toList = ("-- x ---\n".toList, none) := by
    rw [ffm_def, ffm_loop_stop _ 0 (by decide) (by decide)]
    decide
  rw [archiveFrom_none _ _ e1]

theorem eval_short_marker : archiveFrom "-- --\n-- x --\nhi".toList
    = ⟨"-- --\n".toList, [⟨"x".toList, "hi\n".toList⟩]⟩ := by
  have e1 : find_file_marker "-- --\n-- x --\nhi".toList
      = ("-- --\n".toList, some ("x".toList, "hi".toList)) := by
    rw [ffm_def, ffm_loop_jump _ 0 5 6 (by decide) (by decide) rfl,
        ffm_loop_found _ 6 ("x".toList, "hi".toList) (by decide)]
    decide
  have e2 : find_file_marker "hi".toList = ("hi\n".toList, none) := by
    rw [ffm_def, ffm_loop_stop _ 0 (by decide) (by decide)]
    decide
  rw [archiveFrom_some _ _ _ _ e1, parseLoop_last _ _ _ e2]

theorem eval_empty_name : archiveFrom "--  --\n-- x --\nhi".toList
    = ⟨[], [⟨[], []⟩, ⟨"x".toList, "hi\n".toList⟩]⟩ := by
  have e1 : find_file_marker "--  --\n-- x --\nhi".toList
      = ([], some ([], "-- x --\nhi".toList)) := by
    rw [ffm_def, ffm_loop_found _ 0 ([], "-- x --\nhi".toList) (by decide)]
    decide
  have e2 : find_file_marker "-- x --\nhi".toList = ([], some ("x".toList, "hi".toList)) := by
    rw [ffm_def, ffm_loop_found _ 0 ("x".toList, "hi".toList) (by decide)]
    decide
  have e3 : find_file_marker "hi".toList = ("hi\n".toList, none) := by
    rw [ffm_def, ffm_loop_stop _ 0 (by decide) (by decide)]
    decide
  rw [archiveFrom_some _ _ _ _ e1, parseLoop_cons _ _ _ _ _ e2, parseLoop_last _ _ _ e3]

theorem eval_no_nl : archiveFrom "-- x --\nhello".toList
    = ⟨[], [⟨"x".toList, "hello\n".toList⟩]⟩ := by
  have e1 : find_file_marker "-- x --\nhello".toList
      = ([], some ("x".toList, "hello".toList)) := by
    rw [ffm_def, ffm_loop_found _ 0 ("x".toList, "hello".toList) (by decide)]
    decide
  have e2 : find_file_marker "hello".toList = ("hello\n".toList, none) := by
    rw [ffm_def, ffm_loop_stop _ 0 (by decide) (by decide)]
    decide
  rw [archiveFrom_some _ _ _ _ e1, parseLoop_last _ _ _ e2]

theorem eval_two_files : archiveFrom "c\n-- a --\n1\n-- b --\n2\n".toList
    = ⟨"c\n".toList, [⟨"a".toList, "1\n".toList⟩, ⟨"b".toList, "2\n".toList⟩]⟩ := by
  have e1 : find_file_marker "c\n-- a --\n1\n-- b --\n2\n".toList
      = ("c\n".toList, some ("a".toList, "1\n-- b --\n2\n".toList)) := by
    rw [ffm_def, ffm_loop_jump _ 0 1 2 (by decide) (by decide) rfl,
        ffm_loop_found _ 2 ("a".toList, "1\n-- b --\n2\n".toList) (by decide)]
    decide
  have e2 : find_file_marker "1\n-- b --\n2\n".toList
      = ("1\n".toList, some ("b".toList, "2\n".toList)) := by
    rw [ffm_def, ffm_loop_jump _ 0 1 2 (by decide) (by decide) rfl,
        ffm_loop_found _ 2 ("b".toList, "2\n".toList) (by decide)]
    decide
  have e3 : find_file_marker "2\n".toList = ("2\n".toList, none) := by
    rw [ffm_def, ffm_loop_stop _ 0 (by decide) (by decide)]
    decide
  rw [archiveFrom_some _ _ _ _ e1, parseLoop_cons _ _ _ _ _ e2, parseLoop_last _ _ _ e3]

theorem eval_false_positive :
    archiveFrom "-- file1 --\nFile 1 text.\n-- foo ---\nMore file 1 text.\n".toList
      = ⟨[], [⟨"file1".toList, "File 1 text.\n-- foo ---\nMore file 1 text.\n".toList⟩]⟩ := by
  have e1 : find_file_marker "-- file1 --\nFile 1 text.\n-- foo ---\nMore file 1 text.\n".toList
      = ([], some ("file1".toList, "File 1 text.\n-- foo ---\nMore file 1 text.\n".toList)) := by
    rw [ffm_def, ffm_loop_found _ 0
      ("file1".toList, "File 1 text.\n-- foo ---\nMore file 1 text.\n".toList) (by decide)]
    decide
  have e2 : find_file_marker "File 1 text.\n-- foo ---\nMore file 1 text.\n".toList
      = ("File 1 text.\n-- foo ---\nMore file 1 text.\n".toList, none) := by
    rw [ffm_def, ffm_loop_jump _ 0 12 13 (by decide) (by decide) rfl,
        ffm_loop_stop _ 13 (by decide) (by decide)]
    decide
  rw [archiveFrom_some _ _ _ _ e1, parseLoop_last _ _ _ e2]

theorem eval_comment_only : archiveFrom "x\n".toList = ⟨"x\n".toList, []⟩ := by
  have e1 : find_file_marker "x\n".toList = ("x\n".toList, none) := by
    rw [ffm_def, ffm_loop_stop _ 0 (by decide) (by decide)]
    decide
  rw [archiveFrom_none _ _ e1]

/-- C1: parsing is total — for every input string `archiveFrom` terminates and
returns an archive with no failure case (it is a plain function into
`Archive`); the empty string yields an empty comment and zero files, and
marker-only or malformed-marker inputs also parse. -/
theorem claim_C1_parse_total :
    (∀ s : List Char, ∃ a : Archive, archiveFrom s = a) ∧
    archiveFrom ([] : List Char) = ⟨[], []⟩ ∧
    archiveFrom "-- a --".toList = ⟨[], [⟨"a".toList, []⟩]⟩ ∧
    archiveFrom "-- x ---".toList = ⟨"-- x ---\n".toList, []⟩ :=
  ⟨fun s => ⟨archiveFrom s, rfl⟩, eval_empty, eval_only_marker, eval_malformed⟩

/-- C2 counterexample: re-parsing the rendering does not reproduce every
archive — the archive with comment `"x"` (no trailing newline) and no files
re-parses to comment `"x\n"`. -/
theorem claim_C2_roundtrip_counterexample :
    ¬ (archiveFrom (Archive.render ⟨"x".toList, []⟩) = ⟨"x".toList, []⟩) := by
  have hr : Archive.render ⟨"x".toList, []⟩ = "x\n".toList := by decide
  rw [hr, eval_comment_only]
  decide

/-- C2 amended: the render/parse round trip holds after one normalization
pass — for every input string `s`, re-parsing the rendering of the parse of
`s` gives back exactly the parse of `s`. -/
theorem claim_C2_roundtrip_amended (s : List Char) :
    archiveFrom (Archive.render (archiveFrom s)) = archiveFrom s :=
  render_archiveFrom (archiveFrom s) (archiveFrom_inv s).1 (archiveFrom_inv s).2

/-- C3 counterexample: the 5-character line `-- --` is NOT a valid marker
line (the minimum marker-line length is 6), so the input
`"-- --\n-- x --\nhi"` does not yield the two claimed files. -/
theorem claim_C3_empty_marker_counterexample :
    try_parse_marker "-- --".toList = none ∧
    ¬ ((archiveFrom "-- --\n-- x --\nhi".toList).files
        = [⟨[], []⟩, ⟨"x".toList, "hi\n".toList⟩]) := by
  refine ⟨by decide, ?_⟩
  rw [eval_short_marker]
  decide

/-- C3 amended: `-- --` (5 characters) fails the minimum-length check and is
treated as ordinary text, so `"-- --\n-- x --\nhi"` parses to comment
`"-- --\n"` with the single file `("x", "hi\n")`; an empty file name needs
the 6-character marker `--  --`, with which the two claimed files appear. -/
theorem claim_C3_empty_marker_amended :
    try_parse_marker "-- --".toList = none ∧
    archiveFrom "-- --\n-- x --\nhi".toList
      = ⟨"-- --\n".toList, [⟨"x".toList, "hi\n".toList⟩]⟩ ∧
    archiveFrom "--  --\n-- x --\nhi".toList
      = ⟨[], [⟨[], []⟩, ⟨"x".toList, "hi\n".toList⟩]⟩ :=
  ⟨by decide, eval_short_marker, eval_empty_name⟩

/-- C4: a candidate is a marker line exactly when it starts with `-- `, its
line cut at the terminating newline ends with ` --`, and that line is at
least `MARKER_LEN = 6` characters long; the file name is the trimmed
interior, so `--   foo bar   --` parses to the name `foo bar`. -/
theorem claim_C4_marker_line :
    (∀ s : List Char, try_parse_marker s =
      if MARKER.isPrefixOf s = true ∧ MARKER_END.isSuffixOf (cutNL s).1 = true ∧
          MARKER_LEN ≤ (cutNL s).1.length
      then some (trim (((cutNL s).1.drop MARKER.length).take
          ((cutNL s).1.length - MARKER.length - MARKER_END.length)), (cutNL s).2)
      else none) ∧
    MARKER_LEN = 6 ∧
    try_parse_marker "--   foo bar   --".toList = some ("foo bar".toList, []) :=
  ⟨tpm_eq, by decide, by decide⟩

/-- C5: a marker is recognized only at a line start (offset zero or just
after a newline), and the recognized marker is the first such position — at
every earlier line start the candidate fails and stays verbatim inside the
before-part; concretely, the failed candidate line `-- foo ---` remains
inside the file content and starts no new file. -/
theorem claim_C5_scanning :
    (∀ s b n r : List Char, find_file_marker s = (b, some (n, r)) →
      ∃ i, lineStart s i ∧ b = s.take i ∧
        try_parse_marker (s.drop i) = some (n, r) ∧
        ∀ p, p < i → lineStart s p → try_parse_marker (s.drop p) = none) ∧
    archiveFrom "-- file1 --\nFile 1 text.\n-- foo ---\nMore file 1 text.\n".toList
      = ⟨[], [⟨"file1".toList, "File 1 text.\n-- foo ---\nMore file 1 text.\n".toList⟩]⟩ := by
  refine ⟨?_, eval_false_positive⟩
  intro s b n r h
  rcases ffm_char s with ⟨m, hm, hmin, heq⟩ | ⟨hall, heq⟩
  · rw [h] at heq
    injection heq with h1 h2
    exact ⟨m, hm.1, h1, h2.symm, fun p hp hls => not_markerAt_none s p hls (hmin p hp)⟩
  · rw [h] at heq
    injection heq with h1 h2
    exact absurd h2.symm (by simp)

/-- C5 witness: the scanning characterization at the concrete input
`"-- a --"`, whose marker is found at a line start. -/
theorem claim_C5_scanning_witness :
    ∃ i, lineStart "-- a --".toList i ∧ ([] : List Char) = "-- a --".toList.take i ∧
      try_parse_marker ("-- a --".toList.drop i) = some ("a".toList, []) ∧
      ∀ p, p < i → lineStart "-- a --".toList p →
        try_parse_marker ("-- a --".toList.drop p) = none :=
  claim_C5_scanning.1 "-- a --".toList [] "a".toList [] eval_ffm_marker_a

/-- C6: for every input, the parsed comment and every parsed file content is
either empty or ends in a newline; in particular `"-- x --\nhello"` parses
the content as `"hello\n"`. -/
theorem claim_C6_normalized :
    (∀ s : List Char,
      ((archiveFrom s).comment = [] ∨ (archiveFrom s).comment.getLast? = some '\n') ∧
      ∀ f ∈ (archiveFrom s).files,
        f.content = [] ∨ f.content.getLast? = some '\n') ∧
    archiveFrom "-- x --\nhello".toList = ⟨[], [⟨"x".toList, "hello\n".toList⟩]⟩ :=
  ⟨fun s => ⟨(archiveFrom_inv s).1.1,
    fun f hf => ((archiveFrom_inv s).2 f hf).1.1⟩, eval_no_nl⟩

/-- C6 witness: the normalization invariant at the concrete input
`"-- x --\nhello"` and its single parsed file. -/
theorem claim_C6_normalized_witness :
    "hello\n".toList = [] ∨ ("hello\n".toList).getLast? = some '\n' :=
  (claim_C6_normalized.1 "-- x --\nhello".toList).2 ⟨"x".toList, "hello\n".toList⟩
    (by rw [eval_no_nl]; exact List.mem_cons_self _ _)

/-- C7: the example input parses to comment `"c\n"` and files
`[("a","1\n"), ("b","2\n")]` in order, `get "b"` finds the file and
`get "z"` is `none`; in general `get` returns the first file in appearance
order with the given name, or `none` when no file has it. -/
theorem claim_C7_ordering :
    archiveFrom "c\n-- a --\n1\n-- b --\n2\n".toList
      = ⟨"c\n".toList, [⟨"a".toList, "1\n".toList⟩, ⟨"b".toList, "2\n".toList⟩]⟩ ∧
    (archiveFrom "c\n-- a --\n1\n-- b --\n2\n".toList).get "b".toList
      = some ⟨"b".toList, "2\n".toList⟩ ∧
    (archiveFrom "c\n-- a --\n1\n-- b --\n2\n".toList).get "z".toList = none ∧
    ∀ (a : Archive) (nm : List Char),
      (a.get nm = none ↔ ∀ f ∈ a.files, f.name ≠ nm) ∧
      ∀ f, a.get nm = some f → f.name = nm ∧
        ∃ i, a.files.get? i = some f ∧
          ∀ j, j < i → ∀ g, a.files.get? j = some g → g.name ≠ nm := by
  refine ⟨eval_two_files, ?_, ?_, ?_⟩
  · rw [eval_two_files]
    decide
  · rw [eval_two_files]
    decide
  · intro a nm
    refine ⟨get_none_iff a nm, ?_⟩
    intro f h
    exact find?_first_name a.files nm f h

/-- C7 witness: first-match lookup at the concrete archive with one file
`b`, looked up under the absent name `z`. -/
theorem claim_C7_ordering_witness :
    (⟨[], [⟨"b".toList, []⟩]⟩ : Archive).get "z".toList = none :=
  (claim_C7_ordering.2.2.2 ⟨[], [⟨"b".toList, []⟩]⟩ "z".toList).1.mpr (by decide)

/-- C8: rendering appends exactly one newline to a non-empty stored string
that does not already end in one, leaves empty strings empty, and renders an
archive as the normalized comment followed by each file's marker line,
newline, and normalized content. -/
theorem claim_C8_render :
    (∀ s : List Char, s ≠ [] → s.getLast? ≠ some '\n' →
      fix_trailing_newline s = s ++ ['\n']) ∧
    fix_trailing_newline [] = [] ∧
    (∀ s : List Char, s.getLast? = some '\n' → fix_trailing_newline s = s) ∧
    (∀ a : Archive, a.render
      = fix_trailing_newline a.comment ++ (a.files.map File.render).flatten) ∧
    (∀ f : File, f.render
      = MARKER ++ f.name ++ MARKER_END ++ ['\n'] ++ fix_trailing_newline f.content) ∧
    (∀ f : File, f.content ≠ [] → f.content.getLast? ≠ some '\n' →
      f.render = MARKER ++ f.name ++ MARKER_END ++ ['\n'] ++ (f.content ++ ['\n'])) := by
  have hfix : ∀ s : List Char, s ≠ [] → s.getLast? ≠ some '\n' →
      fix_trailing_newline s = s ++ ['\n'] := by
    intro s h1 h2
    unfold fix_trailing_newline
    rw [if_neg]
    rintro (hc | hc)
    · exact h1 hc
    · exact h2 hc
  refine ⟨hfix, rfl, fun s h => fix_of_nf s (Or.inr h), fun a => rfl, fun f => rfl, ?_⟩
  intro f h1 h2
  unfold File.render
  rw [hfix f.content h1 h2]

/-- C8 witness: rendering normalization at the concrete string `"x"` —
exactly one newline is appended. -/
theorem claim_C8_render_witness :
    fix_trailing_newline "x".toList = "x".toList ++ ['\n'] :=
  claim_C8_render.1 "x".toList (by decide) (by decide)

/-- C9: indexed access `a[i]` yields the i-th file exactly when `i` is below
the file count and faults (modelled as `none`) otherwise, while `get` never
faults — it returns `none` when the name is absent. -/
theorem claim_C9_index :
    (∀ (a : Archive) (i : Nat) (h : i < a.files.length),
      a.index i = some (a.files.get ⟨i, h⟩)) ∧
    (∀ (a : Archive) (i : Nat), a.files.length ≤ i → a.index i = none) ∧
    (∀ (a : Archive) (nm : List Char), (∀ f ∈ a.files, f.name ≠ nm) → a.get nm = none) :=
  ⟨fun _a _i h => List.get?_eq_get h,
   fun _a _i h => List.get?_eq_none.mpr h,
   fun a nm h => (get_none_iff a nm).mpr h⟩

/-- C9 witness: indexed access on a concrete one-file archive — index 0 is
the file, index 5 is out of bounds. -/
theorem claim_C9_index_witness :
    (⟨[], [⟨"a".toList, []⟩]⟩ : Archive).index 0 = some ⟨"a".toList, []⟩ ∧
    (⟨[], [⟨"a".toList, []⟩]⟩ : Archive).index 5 = none :=
  ⟨by
    have h := claim_C9_index.1 ⟨[], [⟨"a".toList, []⟩]⟩ 0 (by decide)
    simpa using h,
   claim_C9_index.2.1 ⟨[], [⟨"a".toList, []⟩]⟩ 5 (by decide)⟩

/-- C10: every file name produced by parsing contains no newline and equals
its own whitespace-trim (no leading or trailing whitespace). -/
theorem claim_C10_names (s : List Char) (f : File) (hf : f ∈ (archiveFrom s).files) :
    trim f.name = f.name ∧ '\n' ∉ f.name :=
  ⟨((archiveFrom_inv s).2 f hf).2.1, ((archiveFrom_inv s).2 f hf).2.2⟩

/-- C10 witness: the name invariant at the concrete input
`"-- x --\nhello"` and its single parsed file. -/
theorem claim_C10_names_witness :
    trim "x".toList = "x".toList ∧ '\n' ∉ "x".toList :=
  claim_C10_names "-- x --\nhello".toList ⟨"x".toList, "hello\n".toList⟩
    (by rw [eval_no_nl]; exact List.mem_cons_self _ _)
